import Mathlib

/-
Verification of the ecsact_common template-synchronization tool (main.go).

The embedding models paths as lists of characters, the filesystem as an
association list from paths to entries, and the per-repository orchestration
as a function producing a trace of effects.  External collaborators
(go-git, the gh CLI, filepath.Walk's directory reading) are modelled from
their documented contracts, as described in the spec's section 6.
-/

namespace EcsactCommon

/-- A path, modelled as its list of characters (Go strings are byte strings;
all paths in play are ASCII so characters are a faithful rendering). -/
abbrev Path := List Char

/-- Convert a Lean string literal to a `Path`. -/
def pathOf (s : String) : Path := s.data

/-- An entry of the filesystem: a regular file with its byte content, a
directory, or a node on which stat/open/read fails (permission errors and
similar). -/
inductive FsEntry where
  | file (content : String)
  | dir
  | unreadable
deriving DecidableEq, Repr

/-- The filesystem, as an association list from absolute paths to entries.
A path not in the list does not exist (os.IsNotExist). -/
abbrev FS := List (Path × FsEntry)

/-- Lookup of a path in the filesystem (first binding wins). -/
def lookupFS (fs : FS) (p : Path) : Option FsEntry :=
  match fs with
  | [] => none
  | (q, e) :: rest => if q = p then some e else lookupFS rest p

/-- The single error kind of the embedding: every failure in main.go is fatal
(checkErr / log.Fatal), so one I/O error constructor suffices. -/
inductive Err where
  | ioError
deriving DecidableEq, Repr

/-- strings.ReplaceAll(file, "\\", "/") from main.go line 62: replace every
backslash by a forward slash. -/
def replaceAll (p : Path) : Path :=
  p.map (fun c => if c = '\\' then '/' else c)

/-- strings.TrimPrefix from main.go line 62: drop `pre` from the front of `s`
when it is a prefix of `s`, otherwise return `s` unchanged. -/
def trimPre (s pre : Path) : Path :=
  if pre.isPrefixOf s then s.drop pre.length else s

/-- The target-relative path of a template file, main.go line 62:
`strings.TrimPrefix(strings.ReplaceAll(file, "\\", "/"), strip_prefix)`. -/
def fileRel (file sp : Path) : Path :=
  trimPre (replaceAll file) sp

/-- The FilesDiff structure of main.go lines 30-33. -/
structure FilesDiff where
  NewFiles : List Path
  ChangedFiles : List Path
deriving DecidableEq, Repr

/-- getFilesDiff of main.go lines 57-90.  For each template file: compute its
target-relative path, stat the template file (a failure is fatal), skip
directories; stat the corresponding file in the target checkout: if it does
not exist the path is New; on any other stat failure the run aborts; if it
exists, compare byte contents (equalfile with a sha256 hash), recording the
path as Changed when the contents differ.  Comparing against an unreadable
node or a directory fails the comparison and aborts. -/
def getFilesDiff (fs : FS) (dir : Path) (files : List Path) (sp : Path) :
    Except Err FilesDiff :=
  match files with
  | [] => .ok ⟨[], []⟩
  | file :: rest =>
    match lookupFS fs file with
    | none => .error .ioError
    | some .unreadable => .error .ioError
    | some .dir => getFilesDiff fs dir rest sp
    | some (.file c) =>
      match lookupFS fs (dir ++ '/' :: fileRel file sp) with
      | none =>
        match getFilesDiff fs dir rest sp with
        | .error e => .error e
        | .ok d => .ok ⟨fileRel file sp :: d.NewFiles, d.ChangedFiles⟩
      | some .unreadable => .error .ioError
      | some .dir => .error .ioError
      | some (.file tc) =>
        if tc = c then getFilesDiff fs dir rest sp
        else
          match getFilesDiff fs dir rest sp with
          | .error e => .error e
          | .ok d => .ok ⟨d.NewFiles, fileRel file sp :: d.ChangedFiles⟩

/-- The author object of a gh pr list item, main.go lines 114-117. -/
structure PrAuthor where
  isBot : Bool
  login : Path
deriving DecidableEq, Repr

/-- A gh pr list item, main.go lines 119-123. -/
structure PrListItem where
  author : PrAuthor
  number : Int
  title : Path
deriving DecidableEq, Repr

/-- The matching loop of findPrNumber, main.go lines 139-150: walk the items
in provider response order, skip items whose author login differs, skip items
whose title differs, return the number of the first item passing both, and
none when no item passes. -/
def findPrNumber (items : List PrListItem) (title author : Path) : Option Int :=
  match items with
  | [] => none
  | item :: rest =>
    if item.author.login ≠ author then findPrNumber rest title author
    else if item.title ≠ title then findPrNumber rest title author
    else some item.number

/-! ### Lemmas about the path computations -/

theorem replaceAll_not_mem_bs (p : Path) : '\\' ∉ replaceAll p := by
  intro h
  rcases List.mem_map.mp h with ⟨a, _, ha⟩
  by_cases hab : a = '\\' <;> simp [hab] at ha

theorem replaceAll_eq_self {p : Path} (h : '\\' ∉ p) : replaceAll p = p := by
  induction p with
  | nil => rfl
  | cons a rest ih =>
    have h1 : a ≠ '\\' := fun hh => h (hh ▸ List.mem_cons_self a rest)
    have h2 : '\\' ∉ rest := fun hh => h (List.mem_cons_of_mem _ hh)
    show (if a = '\\' then '/' else a) :: replaceAll rest = a :: rest
    rw [if_neg h1, ih h2]

theorem replaceAll_length (p : Path) : (replaceAll p).length = p.length := by
  simp [replaceAll]

theorem replaceAll_append (p q : Path) :
    replaceAll (p ++ q) = replaceAll p ++ replaceAll q := by
  simp [replaceAll]

theorem trimPre_append (pre r : Path) : trimPre (pre ++ r) pre = r := by
  unfold trimPre
  rw [if_pos]
  · exact List.drop_left pre r
  · exact List.isPrefixOf_iff_prefix.mpr (List.prefix_append pre r)

theorem trimPre_subset (s pre : Path) : trimPre s pre ⊆ s := by
  unfold trimPre
  split
  · exact List.drop_subset _ _
  · exact fun _ h => h

/-! ### Membership characterization of the diff result -/

theorem exists_mem_cons_iff {α : Type} (P : α → Prop) (f : α) (rest : List α) :
    (∃ g, g ∈ f :: rest ∧ P g) ↔ P f ∨ ∃ g, g ∈ rest ∧ P g := by
  constructor
  · rintro ⟨g, hg, hp⟩
    rcases List.mem_cons.mp hg with rfl | hg2
    · exact Or.inl hp
    · exact Or.inr ⟨g, hg2, hp⟩
  · rintro (hp | ⟨g, hg, hp⟩)
    · exact ⟨f, List.mem_cons_self f rest, hp⟩
    · exact ⟨g, List.mem_cons_of_mem f hg, hp⟩

theorem mem_newFiles (fs : FS) (dir sp : Path) (files : List Path) :
    ∀ (d : FilesDiff), getFilesDiff fs dir files sp = .ok d →
      ∀ x, x ∈ d.NewFiles ↔
        ∃ g, g ∈ files ∧ (fileRel g sp = x ∧ (∃ c, lookupFS fs g = some (.file c))
          ∧ lookupFS fs (dir ++ '/' :: x) = none) := by
  induction files with
  | nil =>
    intro d h x
    simp only [getFilesDiff, Except.ok.injEq] at h
    subst h
    simp
  | cons f rest ih =>
    intro d h x
    simp only [getFilesDiff] at h
    rw [exists_mem_cons_iff]
    cases hf : lookupFS fs f with
    | none => simp [hf] at h
    | some e =>
      cases e with
      | unreadable => simp [hf] at h
      | dir =>
        simp only [hf] at h
        rw [ih d h x]
        constructor
        · exact Or.inr
        · rintro (⟨_, ⟨c, hc⟩, _⟩ | hrest)
          · simp at hc
          · exact hrest
      | file c =>
        simp only [hf] at h
        cases ht : lookupFS fs (dir ++ '/' :: fileRel f sp) with
        | none =>
          simp only [ht] at h
          cases hr : getFilesDiff fs dir rest sp with
          | error e2 => simp [hr] at h
          | ok d2 =>
            simp only [hr, Except.ok.injEq] at h
            subst h
            show x ∈ fileRel f sp :: d2.NewFiles ↔ _
            rw [List.mem_cons, ih d2 hr x]
            constructor
            · rintro (rfl | hx)
              · exact Or.inl ⟨rfl, ⟨c, rfl⟩, ht⟩
              · exact Or.inr hx
            · rintro (⟨hrel, _, _⟩ | hrest)
              · exact Or.inl hrel.symm
              · exact Or.inr hrest
        | some e =>
          cases e with
          | unreadable => simp [ht] at h
          | dir => simp [ht] at h
          | file tc =>
            simp only [ht] at h
            by_cases hc : tc = c
            · rw [if_pos hc] at h
              rw [ih d h x]
              constructor
              · exact Or.inr
              · rintro (⟨hrel, _, htg⟩ | hrest)
                · rw [← hrel, ht] at htg; exact Option.noConfusion htg
                · exact hrest
            · rw [if_neg hc] at h
              cases hr : getFilesDiff fs dir rest sp with
              | error e2 => simp [hr] at h
              | ok d2 =>
                simp only [hr, Except.ok.injEq] at h
                subst h
                show x ∈ d2.NewFiles ↔ _
                rw [ih d2 hr x]
                constructor
                · exact Or.inr
                · rintro (⟨hrel, _, htg⟩ | hrest)
                  · rw [← hrel, ht] at htg; exact Option.noConfusion htg
                  · exact hrest

theorem mem_changedFiles (fs : FS) (dir sp : Path) (files : List Path) :
    ∀ (d : FilesDiff), getFilesDiff fs dir files sp = .ok d →
      ∀ x, x ∈ d.ChangedFiles ↔
        ∃ g, g ∈ files ∧ (fileRel g sp = x
          ∧ ∃ c tc, lookupFS fs g = some (.file c)
            ∧ lookupFS fs (dir ++ '/' :: x) = some (.file tc) ∧ tc ≠ c) := by
  induction files with
  | nil =>
    intro d h x
    simp only [getFilesDiff, Except.ok.injEq] at h
    subst h
    simp
  | cons f rest ih =>
    intro d h x
    simp only [getFilesDiff] at h
    rw [exists_mem_cons_iff]
    cases hf : lookupFS fs f with
    | none => simp [hf] at h
    | some e =>
      cases e with
      | unreadable => simp [hf] at h
      | dir =>
        simp only [hf] at h
        rw [ih d h x]
        constructor
        · exact Or.inr
        · rintro (⟨_, c, tc, hc, _⟩ | hrest)
          · simp at hc
          · exact hrest
      | file c =>
        simp only [hf] at h
        cases ht : lookupFS fs (dir ++ '/' :: fileRel f sp) with
        | none =>
          simp only [ht] at h
          cases hr : getFilesDiff fs dir rest sp with
          | error e2 => simp [hr] at h
          | ok d2 =>
            simp only [hr, Except.ok.injEq] at h
            subst h
            show x ∈ d2.ChangedFiles ↔ _
            rw [ih d2 hr x]
            constructor
            · exact Or.inr
            · rintro (⟨hrel, c2, tc2, _, htg, _⟩ | hrest)
              · rw [← hrel, ht] at htg; exact Option.noConfusion htg
              · exact hrest
        | some e =>
          cases e with
          | unreadable => simp [ht] at h
          | dir => simp [ht] at h
          | file tc =>
            simp only [ht] at h
            by_cases hc : tc = c
            · rw [if_pos hc] at h
              rw [ih d h x]
              constructor
              · exact Or.inr
              · rintro (⟨hrel, c2, tc2, hc2, htg2, hne⟩ | hrest)
                · rw [← hrel, ht] at htg2
                  simp only [Option.some.injEq, FsEntry.file.injEq] at hc2 htg2
                  subst hc2
                  subst htg2
                  exact absurd hc hne
                · exact hrest
            · rw [if_neg hc] at h
              cases hr : getFilesDiff fs dir rest sp with
              | error e2 => simp [hr] at h
              | ok d2 =>
                simp only [hr, Except.ok.injEq] at h
                subst h
                show x ∈ fileRel f sp :: d2.ChangedFiles ↔ _
                rw [List.mem_cons, ih d2 hr x]
                constructor
                · rintro (rfl | hx)
                  · exact Or.inl ⟨rfl, c, tc, rfl, ht, hc⟩
                  · exact Or.inr hx
                · rintro (⟨hrel, _⟩ | hrest)
                  · exact Or.inl hrel.symm
                  · exact Or.inr hrest

/-! ### Claim C2: the partition invariant of getFilesDiff -/

/-- Fixture for the C2 counterexample: two distinct template paths that both
normalize and strip to the relative path a/b.  The first template file is
byte-identical to the target file, the second differs from it. -/
def fsC2 : FS :=
  [(pathOf "t/a\\b", .file "X"), (pathOf "t/a/b", .file "Y"),
   (pathOf "r/a/b", .file "X")]

/-- Fixture for the C2 counterexample: the template file list. -/
def filesC2 : List Path := [pathOf "t/a\\b", pathOf "t/a/b"]

/-- Claim C2, counterexample: the claim quantifies over every template file
list, but when two distinct template paths alias to the same stripped
relative path, a template file whose contents are byte-identical to its
target can still see its relative path end up in ChangedFiles (put there by
the aliasing file), contradicting the claim's "in neither set if the
contents are byte-identical". -/
theorem partition_counterexample : ∃ d : FilesDiff,
    getFilesDiff fsC2 (pathOf "r") filesC2 (pathOf "t/") = .ok d
    ∧ lookupFS fsC2 (pathOf "t/a\\b") = some (.file "X")
    ∧ lookupFS fsC2 (pathOf "r" ++ '/' :: fileRel (pathOf "t/a\\b") (pathOf "t/"))
        = some (.file "X")
    ∧ fileRel (pathOf "t/a\\b") (pathOf "t/") ∈ d.ChangedFiles := by
  refine ⟨⟨[], [pathOf "a/b"]⟩, by rfl, by decide, by decide, by decide⟩

/-- Claim C2 (amended): provided no two template files in the list map to the
same stripped relative path, each non-directory template file appears in
exactly one of the three classifications — NewFiles when the target path does
not exist, ChangedFiles when it exists as a file with byte-different content,
and neither set when the contents are byte-identical — and no path is in both
NewFiles and ChangedFiles (the disjointness part holds without the added
hypothesis). -/
theorem partition_amended (fs : FS) (dir sp : Path) (files : List Path)
    (d : FilesDiff) (hok : getFilesDiff fs dir files sp = .ok d)
    (hinj : ∀ f1, f1 ∈ files → ∀ f2, f2 ∈ files →
      fileRel f1 sp = fileRel f2 sp → f1 = f2) :
    (∀ x, ¬(x ∈ d.NewFiles ∧ x ∈ d.ChangedFiles))
    ∧ ∀ f, f ∈ files → ∀ c, lookupFS fs f = some (.file c) →
        (lookupFS fs (dir ++ '/' :: fileRel f sp) = none →
          fileRel f sp ∈ d.NewFiles ∧ fileRel f sp ∉ d.ChangedFiles)
        ∧ ∀ tc, lookupFS fs (dir ++ '/' :: fileRel f sp) = some (.file tc) →
            (tc ≠ c → fileRel f sp ∈ d.ChangedFiles ∧ fileRel f sp ∉ d.NewFiles)
            ∧ (tc = c → fileRel f sp ∉ d.NewFiles ∧ fileRel f sp ∉ d.ChangedFiles) := by
  constructor
  · rintro x ⟨hn, hch⟩
    rcases (mem_newFiles fs dir sp files d hok x).mp hn with ⟨_, _, _, _, htn⟩
    rcases (mem_changedFiles fs dir sp files d hok x).mp hch with
      ⟨_, _, _, _, _, _, htc, _⟩
    rw [htn] at htc
    exact Option.noConfusion htc
  · intro f hm c hcf
    constructor
    · intro htn
      constructor
      · exact (mem_newFiles fs dir sp files d hok _).mpr ⟨f, hm, rfl, ⟨c, hcf⟩, htn⟩
      · intro hch
        rcases (mem_changedFiles fs dir sp files d hok _).mp hch with
          ⟨_, _, _, _, _, _, htc, _⟩
        rw [htn] at htc
        exact Option.noConfusion htc
    · intro tc htc
      constructor
      · intro hne
        constructor
        · exact (mem_changedFiles fs dir sp files d hok _).mpr
            ⟨f, hm, rfl, c, tc, hcf, htc, hne⟩
        · intro hn
          rcases (mem_newFiles fs dir sp files d hok _).mp hn with ⟨_, _, _, _, htn⟩
          rw [htn] at htc
          exact Option.noConfusion htc
      · intro hee
        constructor
        · intro hn
          rcases (mem_newFiles fs dir sp files d hok _).mp hn with ⟨_, _, _, _, htn⟩
          rw [htn] at htc
          exact Option.noConfusion htc
        · intro hch
          rcases (mem_changedFiles fs dir sp files d hok _).mp hch with
            ⟨g, hg, hrelg, c2, tc2, hcg, htg, hne2⟩
          have hgf : g = f := hinj g hg f hm hrelg
          subst hgf
          rw [hcf] at hcg
          rw [htc] at htg
          simp only [Option.some.injEq, FsEntry.file.injEq] at hcg htg
          subst hcg
          subst htg
          exact hne2 hee

/-- Witness for the amended claim C2 at a concrete input: one new file, one
changed file, one identical file, no aliasing. -/
theorem partition_amended_witness :
    (∀ x, ¬(x ∈ ({ NewFiles := [pathOf "x"], ChangedFiles := [pathOf "y"] } : FilesDiff).NewFiles
      ∧ x ∈ ({ NewFiles := [pathOf "x"], ChangedFiles := [pathOf "y"] } : FilesDiff).ChangedFiles))
    ∧ ∀ f, f ∈ [pathOf "t/x", pathOf "t/y", pathOf "t/z"] →
        ∀ c, lookupFS [(pathOf "t/x", .file "A"), (pathOf "t/y", .file "B"),
            (pathOf "t/z", .file "D"), (pathOf "r/y", .file "C"),
            (pathOf "r/z", .file "D")] f = some (.file c) →
        (lookupFS [(pathOf "t/x", .file "A"), (pathOf "t/y", .file "B"),
            (pathOf "t/z", .file "D"), (pathOf "r/y", .file "C"),
            (pathOf "r/z", .file "D")] (pathOf "r" ++ '/' :: fileRel f (pathOf "t/")) = none →
          fileRel f (pathOf "t/") ∈ [pathOf "x"] ∧ fileRel f (pathOf "t/") ∉ [pathOf "y"])
        ∧ ∀ tc, lookupFS [(pathOf "t/x", .file "A"), (pathOf "t/y", .file "B"),
            (pathOf "t/z", .file "D"), (pathOf "r/y", .file "C"),
            (pathOf "r/z", .file "D")] (pathOf "r" ++ '/' :: fileRel f (pathOf "t/"))
            = some (.file tc) →
            (tc ≠ c → fileRel f (pathOf "t/") ∈ [pathOf "y"]
              ∧ fileRel f (pathOf "t/") ∉ [pathOf "x"])
            ∧ (tc = c → fileRel f (pathOf "t/") ∉ [pathOf "x"]
              ∧ fileRel f (pathOf "t/") ∉ [pathOf "y"]) :=
  partition_amended
    [(pathOf "t/x", .file "A"), (pathOf "t/y", .file "B"), (pathOf "t/z", .file "D"),
     (pathOf "r/y", .file "C"), (pathOf "r/z", .file "D")]
    (pathOf "r") (pathOf "t/") [pathOf "t/x", pathOf "t/y", pathOf "t/z"]
    { NewFiles := [pathOf "x"], ChangedFiles := [pathOf "y"] } (by rfl) (by decide)

/-! ### Claim C4: the PR locator -/

/-- The PR list of the spec's worked example. -/
def examplePrItems : List PrListItem :=
  [⟨⟨true, pathOf "bot"⟩, 5, pathOf "sync"⟩,
   ⟨⟨true, pathOf "bot"⟩, 6, pathOf "other"⟩]

/-- Claim C4: findPrNumber returns the number of the first item (in provider
response order) matching both author login and title exactly, returns none
(a value, not an error) when nothing matches, and resolves the spec's worked
example to 5 for author bot and to none for author human. -/
theorem findPrNumber_spec (items : List PrListItem) (t a : Path) :
    findPrNumber items t a =
      (items.find? (fun i => decide (i.author.login = a ∧ i.title = t))).map
        PrListItem.number
    ∧ ((∀ i, i ∈ items → ¬(i.author.login = a ∧ i.title = t)) →
        findPrNumber items t a = none)
    ∧ findPrNumber examplePrItems (pathOf "sync") (pathOf "bot") = some 5
    ∧ findPrNumber examplePrItems (pathOf "sync") (pathOf "human") = none := by
  refine ⟨?_, ?_, by decide, by decide⟩
  · induction items with
    | nil => rfl
    | cons i rest ih =>
      by_cases h1 : i.author.login = a
      · by_cases h2 : i.title = t
        · simp [findPrNumber, h1, h2]
        · simp [findPrNumber, h1, h2, ih]
      · simp [findPrNumber, h1, ih]
  · intro hnone
    induction items with
    | nil => rfl
    | cons i rest ih =>
      have hi := hnone i (List.mem_cons_self i rest)
      have hrest : ∀ j, j ∈ rest → ¬(j.author.login = a ∧ j.title = t) :=
        fun j hj => hnone j (List.mem_cons_of_mem i hj)
      by_cases h1 : i.author.login = a
      · by_cases h2 : i.title = t
        · exact absurd ⟨h1, h2⟩ hi
        · simpa [findPrNumber, h1, h2] using ih hrest
      · simpa [findPrNumber, h1] using ih hrest

/-- Witness for claim C4: the no-match branch of the locator at a concrete
list, obtained from the theorem. -/
theorem findPrNumber_spec_witness :
    findPrNumber examplePrItems (pathOf "nothing") (pathOf "bot") = none :=
  (findPrNumber_spec examplePrItems (pathOf "nothing") (pathOf "bot")).2.1 (by decide)

/-! ### Claim C5: separator normalization before prefix stripping -/

/-- Claim C5: the diff engine's relative-path computation first replaces
backslashes by forward slashes and then strips the template-root, so every
input that normalizes to templates/a/b.txt — whichever separator style it
uses — is mapped to a/b.txt by the strip of templates/. -/
theorem fileRel_normalize_spec (p : Path) :
    replaceAll p = pathOf "templates/a/b.txt" →
      fileRel p (pathOf "templates/") = pathOf "a/b.txt" := by
  intro h
  unfold fileRel
  rw [h]
  decide

/-- Witness for claim C5: the forward-slash spelling and the backslash
spelling of the template path both map to a/b.txt. -/
theorem fileRel_normalize_spec_witness :
    fileRel (pathOf "templates/a/b.txt") (pathOf "templates/") = pathOf "a/b.txt"
    ∧ fileRel (pathOf "templates\\a\\b.txt") (pathOf "templates/") = pathOf "a/b.txt" :=
  ⟨fileRel_normalize_spec _ (by decide), fileRel_normalize_spec _ (by decide)⟩

/-! ### Claim C10: the diff-to-materializer round trip on paths -/

/-- Claim C10: for a backslash-free enumerated path that starts with the
template directory followed by a slash, prepending the template directory and
a slash to the stripped relative path gives the original path back (the
materializer opens exactly the file the diff classified); when the path
contains a backslash the round trip fails. -/
theorem roundTrip_spec (fd rest : Path) :
    ('\\' ∉ fd ++ '/' :: rest →
      fd ++ '/' :: fileRel (fd ++ '/' :: rest) (fd ++ ['/']) = fd ++ '/' :: rest)
    ∧ ∀ p : Path, '\\' ∈ p → fd ++ '/' :: fileRel p (fd ++ ['/']) ≠ p := by
  constructor
  · intro h
    have hself : replaceAll (fd ++ '/' :: rest) = fd ++ '/' :: rest :=
      replaceAll_eq_self h
    unfold fileRel
    rw [hself]
    rw [show fd ++ '/' :: rest = (fd ++ ['/']) ++ rest by simp]
    rw [trimPre_append]
    simp
  · intro p hp
    by_cases hfd : '\\' ∈ fd
    · have hnp : ¬(fd ++ ['/']).isPrefixOf (replaceAll p) = true := by
        intro hpre
        have hsub : (fd ++ ['/']) ⊆ replaceAll p :=
          (List.isPrefixOf_iff_prefix.mp hpre).subset
        exact replaceAll_not_mem_bs p (hsub (List.mem_append_left _ hfd))
      have hrel : fileRel p (fd ++ ['/']) = replaceAll p := by
        unfold fileRel trimPre
        rw [if_neg hnp]
      intro heq
      have hlen := congrArg List.length heq
      rw [hrel] at hlen
      simp only [List.length_append, List.length_cons, replaceAll_length] at hlen
      omega
    · intro heq
      have hres : '\\' ∉ fd ++ '/' :: fileRel p (fd ++ ['/']) := by
        intro hin
        rcases List.mem_append.mp hin with hin1 | hin2
        · exact hfd hin1
        · rcases List.mem_cons.mp hin2 with he | hin3
          · exact absurd he (by decide)
          · exact replaceAll_not_mem_bs p
              ((trimPre_subset (replaceAll p) (fd ++ ['/'])) hin3)
      rw [heq] at hres
      exact hres hp

/-- Witness for claim C10: the round trip holds on templates/a/b.txt and
fails on the backslash spelling. -/
theorem roundTrip_spec_witness :
    pathOf "templates" ++ '/' :: fileRel (pathOf "templates" ++ '/' :: pathOf "a/b.txt")
        (pathOf "templates" ++ ['/']) = pathOf "templates" ++ '/' :: pathOf "a/b.txt"
    ∧ pathOf "templates" ++ '/' :: fileRel (pathOf "templates/a\\b.txt")
        (pathOf "templates" ++ ['/']) ≠ pathOf "templates/a\\b.txt" :=
  ⟨(roundTrip_spec (pathOf "templates") (pathOf "a/b.txt")).1 (by decide),
   (roundTrip_spec (pathOf "templates") []).2 (pathOf "templates/a\\b.txt") (by decide)⟩

/-! ### The orchestrator, as an effect-trace producer -/

/-- A git commit hash, abstracted. -/
abbrev Hash := Nat

/-- The observable side effects the orchestrator requests from its
collaborators (go-git, the git CLI and the gh CLI), in request order. -/
inductive Effect where
  | cloneRepo (url : Path)
  | checkoutBranch (branch : Path) (hash : Hash) (create force : Bool)
  | mkdirAll (p : Path)
  | writeFile (p : Path) (content : String)
  | listPrs (repo : Path)
  | stageAll
  | commit (title author email : Path)
  | push (branch : Path) (force : Bool)
  | ghCreatePr (repo title branch : Path)
deriving DecidableEq, Repr

/-- The clone URL of main.go lines 226-232: with a non-empty GH_TOKEN the
author login and the token are embedded in the URL, otherwise the plain
public URL is used. -/
def cloneUrl (login token repo : Path) : Path :=
  if token = [] then
    pathOf "https://github.com/ecsact-dev/" ++ repo ++ pathOf ".git"
  else
    pathOf "https://" ++ login ++ ':' :: token ++ pathOf "@github.com/ecsact-dev/"
      ++ repo ++ pathOf ".git"

/-- The fixed branch name of main.go line 253. -/
def branchName : Path := pathOf "chore/sync-with-ecsact-common"

/-- The synthesized no-reply email of main.go lines 295 and 301. -/
def noreplyEmail (login : Path) : Path :=
  login ++ pathOf "@users.noreply.github.com"

/-- path.Dir of the target path (main.go line 269): everything before the
last slash.  Go's path.Dir additionally runs Clean on the result; the
cleaned spelling is irrelevant here because only the presence and position
of the directory-creation effect matter. -/
def dirOf (p : Path) : Path :=
  match p.reverse.dropWhile (fun c => c != '/') with
  | [] => ['.']
  | _ :: t => t.reverse

/-- The configuration and per-run environment of the orchestrator: the
config.yml fields (main.go lines 23-28), the enumerated template files, the
filesystem after cloning, the open-PR lists the provider would answer with,
the set of unwritable destination paths, and the head commit of each
repository. -/
structure Env where
  prTitle : Path
  filesDir : Path
  authorLogin : Path
  token : Path
  files : List Path
  fs : FS
  prLists : Path → List PrListItem
  badDst : List Path
  heads : Path → Hash

/-- The new-file loop of main.go lines 264-276: open the template file (a
failure is fatal), create the parent directories of the target path, then
create and fill the target file (a creation failure — destination listed in
`bad` — is fatal). -/
def materializeNew (fs : FS) (fd cd : Path) (bad : List Path) :
    List Path → Except Err (List Effect)
  | [] => .ok []
  | n :: rest =>
    match lookupFS fs (fd ++ '/' :: n) with
    | some (.file c) =>
      if (cd ++ '/' :: n) ∈ bad then .error .ioError
      else
        match materializeNew fs fd cd bad rest with
        | .error e => .error e
        | .ok tr => .ok (.mkdirAll (dirOf (cd ++ '/' :: n))
            :: .writeFile (cd ++ '/' :: n) c :: tr)
    | _ => .error .ioError

/-- The changed-file loop of main.go lines 278-287: as the new-file loop but
with no parent-directory creation. -/
def materializeChanged (fs : FS) (fd cd : Path) (bad : List Path) :
    List Path → Except Err (List Effect)
  | [] => .ok []
  | n :: rest =>
    match lookupFS fs (fd ++ '/' :: n) with
    | some (.file c) =>
      if (cd ++ '/' :: n) ∈ bad then .error .ioError
      else
        match materializeChanged fs fd cd bad rest with
        | .error e => .error e
        | .ok tr => .ok (.writeFile (cd ++ '/' :: n) c :: tr)
    | _ => .error .ioError

/-- The trace tail after the PR lookup, main.go lines 289-304 with createPr
(lines 176-210) and updatePr (lines 153-174): stage everything, commit with
the configured title, author and no-reply email, then either push the branch
as a new upstream branch and create a PR, or force-push with no PR
creation. -/
def prTail (env : Env) (repoName : Path) : List Effect :=
  match findPrNumber (env.prLists repoName) env.prTitle env.authorLogin with
  | none => [.stageAll,
      .commit env.prTitle env.authorLogin (noreplyEmail env.authorLogin),
      .push branchName false, .ghCreatePr repoName env.prTitle branchName]
  | some _ => [.stageAll,
      .commit env.prTitle env.authorLogin (noreplyEmail env.authorLogin),
      .push branchName true]

/-- The body of the per-repository loop of main, lines 223-305: clone, diff,
skip when the diff is empty, otherwise check out the sync branch from head,
materialize new and changed files, look up an existing PR by title and
author, and create or update accordingly. -/
def processRepo (env : Env) (repoName : Path) : Except Err (List Effect) :=
  match getFilesDiff env.fs (pathOf "./clones/" ++ repoName) env.files
      (env.filesDir ++ ['/']) with
  | .error e => .error e
  | .ok d =>
    if d.ChangedFiles = [] ∧ d.NewFiles = [] then
      .ok [.cloneRepo (cloneUrl env.authorLogin env.token repoName)]
    else
      match materializeNew env.fs env.filesDir (pathOf "./clones/" ++ repoName)
          env.badDst d.NewFiles with
      | .error e => .error e
      | .ok newTr =>
        match materializeChanged env.fs env.filesDir (pathOf "./clones/" ++ repoName)
            env.badDst d.ChangedFiles with
        | .error e => .error e
        | .ok chTr =>
          .ok ([.cloneRepo (cloneUrl env.authorLogin env.token repoName),
                .checkoutBranch branchName (env.heads repoName) true true]
               ++ newTr ++ chTr ++ [.listPrs repoName] ++ prTail env repoName)

/-- The loop over the configured repositories, main.go line 223: strictly
sequential, any failure aborting the remaining repositories. -/
def processAll (env : Env) : List Path → Except Err (List Effect)
  | [] => .ok []
  | r :: rest =>
    match processRepo env r with
    | .error e => .error e
    | .ok tr =>
      match processAll env rest with
      | .error e => .error e
      | .ok trs => .ok (tr ++ trs)

/-- Effects that mutate something after the initial clone: branch state,
working tree, index, or remote.  The clone itself precedes the diff, and
listing PRs is a read. -/
def mutatingEffect : Effect → Bool
  | .cloneRepo _ => false
  | .checkoutBranch _ _ _ _ => true
  | .mkdirAll _ => true
  | .writeFile _ _ => true
  | .listPrs _ => false
  | .stageAll => true
  | .commit _ _ _ => true
  | .push _ _ => true
  | .ghCreatePr _ _ _ => true

/-- Effects that stage, commit or touch the remote — used to state that the
PR lookup happens before any committing logic runs. -/
def remoteEffect : Effect → Bool
  | .stageAll => true
  | .commit _ _ _ => true
  | .push _ _ => true
  | .ghCreatePr _ _ _ => true
  | _ => false

/-! ### Local branch state, for the checkout semantics of claim C7 -/

/-- Local branch state: branch name to commit hash. -/
abbrev Branches := List (Path × Hash)

/-- Lookup of a branch by name. -/
def lookupBranch (bs : Branches) (n : Path) : Option Hash :=
  match bs with
  | [] => none
  | (m, h) :: rest => if m = n then some h else lookupBranch rest n

/-- Point branch `n` at hash `h`, creating it when absent. -/
def setBranch (bs : Branches) (n : Path) (h : Hash) : Branches :=
  match bs with
  | [] => [(n, h)]
  | (m, g) :: rest => if m = n then (m, h) :: rest else (m, g) :: setBranch rest n h

/-- Modelled from the spec: the version-control collaborator's
checkout_branch(name, create, force) capability of section 6, as realised by
go-git's Worktree.Checkout with CheckoutOptions{Hash, Branch, Create, Force}
at main.go lines 255-262.  Creating a branch that already exists fails
unless force is set, in which case the branch is reset to the given hash;
checking out a missing branch without create fails. -/
def checkoutBranchSem (bs : Branches) (n : Path) (h : Hash) (create force : Bool) :
    Except Err Branches :=
  if create then
    match lookupBranch bs n with
    | some _ => if force then .ok (setBranch bs n h) else .error .ioError
    | none => .ok (setBranch bs n h)
  else
    match lookupBranch bs n with
    | some _ => .ok bs
    | none => .error .ioError

theorem lookupBranch_setBranch (bs : Branches) (n : Path) (h : Hash) :
    lookupBranch (setBranch bs n h) n = some h := by
  induction bs with
  | nil => simp [setBranch, lookupBranch]
  | cons e rest ih =>
    by_cases hm : e.1 = n
    · simp [setBranch, lookupBranch, hm]
    · simp [setBranch, lookupBranch, hm, ih]

theorem checkoutBranchSem_force_create (bs : Branches) (n : Path) (h : Hash) :
    checkoutBranchSem bs n h true true = .ok (setBranch bs n h) := by
  unfold checkoutBranchSem
  cases lookupBranch bs n <;> simp

/-! ### Lemmas about the materializers and the per-repository trace -/

/-- The effects produced by materializing one new file whose template source
is a readable regular file. -/
def newFileEffects (fs : FS) (fd cd n : Path) : List Effect :=
  match lookupFS fs (fd ++ '/' :: n) with
  | some (.file c) =>
    [.mkdirAll (dirOf (cd ++ '/' :: n)), .writeFile (cd ++ '/' :: n) c]
  | _ => []

/-- The effects produced by materializing a list of new files. -/
def newEffectsList (fs : FS) (fd cd : Path) : List Path → List Effect
  | [] => []
  | n :: rest => newFileEffects fs fd cd n ++ newEffectsList fs fd cd rest

/-- The effects produced by materializing one changed file whose template
source is a readable regular file. -/
def chFileEffects (fs : FS) (fd cd n : Path) : List Effect :=
  match lookupFS fs (fd ++ '/' :: n) with
  | some (.file c) => [.writeFile (cd ++ '/' :: n) c]
  | _ => []

/-- The effects produced by materializing a list of changed files. -/
def chEffectsList (fs : FS) (fd cd : Path) : List Path → List Effect
  | [] => []
  | n :: rest => chFileEffects fs fd cd n ++ chEffectsList fs fd cd rest

theorem materializeNew_ok_eq (fs : FS) (fd cd : Path) (bad : List Path) :
    ∀ (ns : List Path) (tr : List Effect),
      materializeNew fs fd cd bad ns = .ok tr → tr = newEffectsList fs fd cd ns := by
  intro ns
  induction ns with
  | nil =>
    intro tr h
    simp only [materializeNew, Except.ok.injEq] at h
    subst h
    rfl
  | cons n rest ih =>
    intro tr h
    simp only [materializeNew] at h
    cases hl : lookupFS fs (fd ++ '/' :: n) with
    | none => simp [hl] at h
    | some e =>
      cases e with
      | unreadable => simp [hl] at h
      | dir => simp [hl] at h
      | file c =>
        simp only [hl] at h
        by_cases hb : (cd ++ '/' :: n) ∈ bad
        · rw [if_pos hb] at h; exact absurd h (by simp)
        · rw [if_neg hb] at h
          cases hr : materializeNew fs fd cd bad rest with
          | error e2 => simp [hr] at h
          | ok tr2 =>
            simp only [hr, Except.ok.injEq] at h
            subst h
            simp [newEffectsList, newFileEffects, hl, ih tr2 hr]

theorem materializeChanged_ok_eq (fs : FS) (fd cd : Path) (bad : List Path) :
    ∀ (cs : List Path) (tr : List Effect),
      materializeChanged fs fd cd bad cs = .ok tr → tr = chEffectsList fs fd cd cs := by
  intro cs
  induction cs with
  | nil =>
    intro tr h
    simp only [materializeChanged, Except.ok.injEq] at h
    subst h
    rfl
  | cons n rest ih =>
    intro tr h
    simp only [materializeChanged] at h
    cases hl : lookupFS fs (fd ++ '/' :: n) with
    | none => simp [hl] at h
    | some e =>
      cases e with
      | unreadable => simp [hl] at h
      | dir => simp [hl] at h
      | file c =>
        simp only [hl] at h
        by_cases hb : (cd ++ '/' :: n) ∈ bad
        · rw [if_pos hb] at h; exact absurd h (by simp)
        · rw [if_neg hb] at h
          cases hr : materializeChanged fs fd cd bad rest with
          | error e2 => simp [hr] at h
          | ok tr2 =>
            simp only [hr, Except.ok.injEq] at h
            subst h
            simp [chEffectsList, chFileEffects, hl, ih tr2 hr]

theorem newEffectsList_shape (fs : FS) (fd cd : Path) (ns : List Path) :
    ∀ e, e ∈ newEffectsList fs fd cd ns →
      (∃ q, e = .mkdirAll q) ∨ (∃ q c, e = .writeFile q c) := by
  induction ns with
  | nil => intro e he; simp [newEffectsList] at he
  | cons n rest ih =>
    intro e he
    rcases List.mem_append.mp he with h1 | h2
    · unfold newFileEffects at h1
      cases hl : lookupFS fs (fd ++ '/' :: n) with
      | none => rw [hl] at h1; simp at h1
      | some e2 =>
        cases e2 with
        | unreadable => rw [hl] at h1; simp at h1
        | dir => rw [hl] at h1; simp at h1
        | file c =>
          rw [hl] at h1
          rcases List.mem_cons.mp h1 with rfl | h3
          · exact Or.inl ⟨_, rfl⟩
          · rcases List.mem_cons.mp h3 with rfl | h4
            · exact Or.inr ⟨_, _, rfl⟩
            · simp at h4
    · exact ih e h2

theorem chEffectsList_shape (fs : FS) (fd cd : Path) (cs : List Path) :
    ∀ e, e ∈ chEffectsList fs fd cd cs → ∃ q c, e = .writeFile q c := by
  induction cs with
  | nil => intro e he; simp [chEffectsList] at he
  | cons n rest ih =>
    intro e he
    rcases List.mem_append.mp he with h1 | h2
    · unfold chFileEffects at h1
      cases hl : lookupFS fs (fd ++ '/' :: n) with
      | none => rw [hl] at h1; simp at h1
      | some e2 =>
        cases e2 with
        | unreadable => rw [hl] at h1; simp at h1
        | dir => rw [hl] at h1; simp at h1
        | file c =>
          rw [hl] at h1
          rcases List.mem_cons.mp h1 with rfl | h3
          · exact ⟨_, _, rfl⟩
          · simp at h3
    · exact ih e h2

/-- Inversion of a successful non-empty-diff run of the per-repository loop:
the trace is clone, checkout, the new-file effects, the changed-file
effects, the PR listing, then the commit/push tail. -/
theorem processRepo_ok_inv (env : Env) (r : Path) (tr : List Effect) (d : FilesDiff)
    (hok : getFilesDiff env.fs (pathOf "./clones/" ++ r) env.files
      (env.filesDir ++ ['/']) = .ok d)
    (hne : ¬(d.ChangedFiles = [] ∧ d.NewFiles = []))
    (hpr : processRepo env r = .ok tr) :
    ∃ newTr chTr,
      materializeNew env.fs env.filesDir (pathOf "./clones/" ++ r)
        env.badDst d.NewFiles = .ok newTr
      ∧ materializeChanged env.fs env.filesDir (pathOf "./clones/" ++ r)
        env.badDst d.ChangedFiles = .ok chTr
      ∧ tr = [.cloneRepo (cloneUrl env.authorLogin env.token r),
            .checkoutBranch branchName (env.heads r) true true]
          ++ newTr ++ chTr ++ [.listPrs r] ++ prTail env r := by
  unfold processRepo at hpr
  simp only [hok] at hpr
  rw [if_neg hne] at hpr
  cases hm1 : materializeNew env.fs env.filesDir (pathOf "./clones/" ++ r)
      env.badDst d.NewFiles with
  | error e => simp [hm1] at hpr
  | ok newTr =>
    simp only [hm1] at hpr
    cases hm2 : materializeChanged env.fs env.filesDir (pathOf "./clones/" ++ r)
        env.badDst d.ChangedFiles with
    | error e => simp [hm2] at hpr
    | ok chTr =>
      simp only [hm2, Except.ok.injEq] at hpr
      exact ⟨newTr, chTr, rfl, rfl, hpr.symm⟩

theorem materializeNew_err_src (fs : FS) (fd cd : Path) (bad : List Path) :
    ∀ ns : List Path,
      (∃ n, n ∈ ns ∧ ∀ c, lookupFS fs (fd ++ '/' :: n) ≠ some (.file c)) →
      materializeNew fs fd cd bad ns = .error .ioError := by
  intro ns
  induction ns with
  | nil => rintro ⟨n, hn, _⟩; simp at hn
  | cons m rest ih =>
    rintro ⟨n, hn, hbad⟩
    rcases List.mem_cons.mp hn with rfl | hn2
    · cases hl : lookupFS fs (fd ++ '/' :: n) with
      | none => simp [materializeNew, hl]
      | some e =>
        cases e with
        | unreadable => simp [materializeNew, hl]
        | dir => simp [materializeNew, hl]
        | file c => exact absurd hl (hbad c)
    · cases hl : lookupFS fs (fd ++ '/' :: m) with
      | none => simp [materializeNew, hl]
      | some e =>
        cases e with
        | unreadable => simp [materializeNew, hl]
        | dir => simp [materializeNew, hl]
        | file c =>
          by_cases hb : (cd ++ '/' :: m) ∈ bad
          · simp [materializeNew, hl, hb]
          · simp [materializeNew, hl, hb, ih ⟨n, hn2, hbad⟩]

theorem materializeNew_err_dst (fs : FS) (fd cd : Path) (bad : List Path) :
    ∀ ns : List Path, (∃ n, n ∈ ns ∧ (cd ++ '/' :: n) ∈ bad) →
      materializeNew fs fd cd bad ns = .error .ioError := by
  intro ns
  induction ns with
  | nil => rintro ⟨n, hn, _⟩; simp at hn
  | cons m rest ih =>
    rintro ⟨n, hn, hbad⟩
    rcases List.mem_cons.mp hn with rfl | hn2
    · cases hl : lookupFS fs (fd ++ '/' :: n) with
      | none => simp [materializeNew, hl]
      | some e =>
        cases e with
        | unreadable => simp [materializeNew, hl]
        | dir => simp [materializeNew, hl]
        | file c => simp [materializeNew, hl, hbad]
    · cases hl : lookupFS fs (fd ++ '/' :: m) with
      | none => simp [materializeNew, hl]
      | some e =>
        cases e with
        | unreadable => simp [materializeNew, hl]
        | dir => simp [materializeNew, hl]
        | file c =>
          by_cases hb : (cd ++ '/' :: m) ∈ bad
          · simp [materializeNew, hl, hb]
          · simp [materializeNew, hl, hb, ih ⟨n, hn2, hbad⟩]

theorem materializeChanged_err_src (fs : FS) (fd cd : Path) (bad : List Path) :
    ∀ cs : List Path,
      (∃ n, n ∈ cs ∧ ∀ c, lookupFS fs (fd ++ '/' :: n) ≠ some (.file c)) →
      materializeChanged fs fd cd bad cs = .error .ioError := by
  intro cs
  induction cs with
  | nil => rintro ⟨n, hn, _⟩; simp at hn
  | cons m rest ih =>
    rintro ⟨n, hn, hbad⟩
    rcases List.mem_cons.mp hn with rfl | hn2
    · cases hl : lookupFS fs (fd ++ '/' :: n) with
      | none => simp [materializeChanged, hl]
      | some e =>
        cases e with
        | unreadable => simp [materializeChanged, hl]
        | dir => simp [materializeChanged, hl]
        | file c => exact absurd hl (hbad c)
    · cases hl : lookupFS fs (fd ++ '/' :: m) with
      | none => simp [materializeChanged, hl]
      | some e =>
        cases e with
        | unreadable => simp [materializeChanged, hl]
        | dir => simp [materializeChanged, hl]
        | file c =>
          by_cases hb : (cd ++ '/' :: m) ∈ bad
          · simp [materializeChanged, hl, hb]
          · simp [materializeChanged, hl, hb, ih ⟨n, hn2, hbad⟩]

theorem materializeChanged_err_dst (fs : FS) (fd cd : Path) (bad : List Path) :
    ∀ cs : List Path, (∃ n, n ∈ cs ∧ (cd ++ '/' :: n) ∈ bad) →
      materializeChanged fs fd cd bad cs = .error .ioError := by
  intro cs
  induction cs with
  | nil => rintro ⟨n, hn, _⟩; simp at hn
  | cons m rest ih =>
    rintro ⟨n, hn, hbad⟩
    rcases List.mem_cons.mp hn with rfl | hn2
    · cases hl : lookupFS fs (fd ++ '/' :: n) with
      | none => simp [materializeChanged, hl]
      | some e =>
        cases e with
        | unreadable => simp [materializeChanged, hl]
        | dir => simp [materializeChanged, hl]
        | file c => simp [materializeChanged, hl, hbad]
    · cases hl : lookupFS fs (fd ++ '/' :: m) with
      | none => simp [materializeChanged, hl]
      | some e =>
        cases e with
        | unreadable => simp [materializeChanged, hl]
        | dir => simp [materializeChanged, hl]
        | file c =>
          by_cases hb : (cd ++ '/' :: m) ∈ bad
          · simp [materializeChanged, hl, hb]
          · simp [materializeChanged, hl, hb, ih ⟨n, hn2, hbad⟩]

theorem materializeNew_ok_src (fs : FS) (fd cd : Path) (bad : List Path) :
    ∀ (ns : List Path) (tr : List Effect), materializeNew fs fd cd bad ns = .ok tr →
      ∀ n, n ∈ ns → ∃ c, lookupFS fs (fd ++ '/' :: n) = some (.file c) := by
  intro ns
  induction ns with
  | nil => intro tr _ n hn; simp at hn
  | cons m rest ih =>
    intro tr h n hn
    simp only [materializeNew] at h
    cases hl : lookupFS fs (fd ++ '/' :: m) with
    | none => simp [hl] at h
    | some e =>
      cases e with
      | unreadable => simp [hl] at h
      | dir => simp [hl] at h
      | file c =>
        simp only [hl] at h
        by_cases hb : (cd ++ '/' :: m) ∈ bad
        · rw [if_pos hb] at h; exact absurd h (by simp)
        · rw [if_neg hb] at h
          cases hr : materializeNew fs fd cd bad rest with
          | error e2 => simp [hr] at h
          | ok tr2 =>
            rcases List.mem_cons.mp hn with rfl | hn2
            · exact ⟨c, hl⟩
            · exact ih tr2 hr n hn2

theorem materializeChanged_ok_src (fs : FS) (fd cd : Path) (bad : List Path) :
    ∀ (cs : List Path) (tr : List Effect), materializeChanged fs fd cd bad cs = .ok tr →
      ∀ n, n ∈ cs → ∃ c, lookupFS fs (fd ++ '/' :: n) = some (.file c) := by
  intro cs
  induction cs with
  | nil => intro tr _ n hn; simp at hn
  | cons m rest ih =>
    intro tr h n hn
    simp only [materializeChanged] at h
    cases hl : lookupFS fs (fd ++ '/' :: m) with
    | none => simp [hl] at h
    | some e =>
      cases e with
      | unreadable => simp [hl] at h
      | dir => simp [hl] at h
      | file c =>
        simp only [hl] at h
        by_cases hb : (cd ++ '/' :: m) ∈ bad
        · rw [if_pos hb] at h; exact absurd h (by simp)
        · rw [if_neg hb] at h
          cases hr : materializeChanged fs fd cd bad rest with
          | error e2 => simp [hr] at h
          | ok tr2 =>
            rcases List.mem_cons.mp hn with rfl | hn2
            · exact ⟨c, hl⟩
            · exact ih tr2 hr n hn2

theorem mem_newEffectsList (fs : FS) (fd cd : Path) :
    ∀ (ns : List Path) (n : Path) (c : String), n ∈ ns →
      lookupFS fs (fd ++ '/' :: n) = some (.file c) →
      Effect.mkdirAll (dirOf (cd ++ '/' :: n)) ∈ newEffectsList fs fd cd ns
      ∧ Effect.writeFile (cd ++ '/' :: n) c ∈ newEffectsList fs fd cd ns := by
  intro ns
  induction ns with
  | nil => intro n c hn; simp at hn
  | cons m rest ih =>
    intro n c hn hl
    rcases List.mem_cons.mp hn with rfl | hn2
    · constructor
      · exact List.mem_append_left _ (by simp [newFileEffects, hl])
      · exact List.mem_append_left _ (by simp [newFileEffects, hl])
    · rcases ih n c hn2 hl with ⟨h1, h2⟩
      exact ⟨List.mem_append_right _ h1, List.mem_append_right _ h2⟩

theorem mem_chEffectsList (fs : FS) (fd cd : Path) :
    ∀ (cs : List Path) (n : Path) (c : String), n ∈ cs →
      lookupFS fs (fd ++ '/' :: n) = some (.file c) →
      Effect.writeFile (cd ++ '/' :: n) c ∈ chEffectsList fs fd cd cs := by
  intro cs
  induction cs with
  | nil => intro n c hn; simp at hn
  | cons m rest ih =>
    intro n c hn hl
    rcases List.mem_cons.mp hn with rfl | hn2
    · exact List.mem_append_left _ (by simp [chFileEffects, hl])
    · exact List.mem_append_right _ (ih n c hn2 hl)

/-! ### Claim C1: an empty diff short-circuits with no mutating effects -/

/-- Claim C1: when the computed diff has both NewFiles and ChangedFiles
empty, the per-repository run produces only the initial clone — no branch
checkout, no directory creation or file write, no stage/commit, no push, no
PR creation — and the loop moves on to the next repository, whose processing
is unaffected. -/
theorem skipNoChange_spec (env : Env) (r : Path) (rest : List Path) (d : FilesDiff)
    (hok : getFilesDiff env.fs (pathOf "./clones/" ++ r) env.files
      (env.filesDir ++ ['/']) = .ok d)
    (hch : d.ChangedFiles = []) (hnew : d.NewFiles = []) :
    processRepo env r = .ok [.cloneRepo (cloneUrl env.authorLogin env.token r)]
    ∧ (∀ e, e ∈ [Effect.cloneRepo (cloneUrl env.authorLogin env.token r)] →
        mutatingEffect e = false)
    ∧ ∀ trs, processAll env rest = .ok trs →
        processAll env (r :: rest)
          = .ok (.cloneRepo (cloneUrl env.authorLogin env.token r) :: trs) := by
  have h1 : processRepo env r
      = .ok [.cloneRepo (cloneUrl env.authorLogin env.token r)] := by
    unfold processRepo
    simp only [hok]
    rw [if_pos ⟨hch, hnew⟩]
  refine ⟨h1, ?_, ?_⟩
  · intro e he
    rcases List.mem_cons.mp he with rfl | h2
    · rfl
    · simp at h2
  · intro trs htrs
    simp [processAll, h1, htrs]

/-- Fixture for the C1 witness: the template file exists in the clone with
identical bytes, so the diff is empty. -/
def envC1 : Env where
  prTitle := pathOf "chore: sync with ecsact_common"
  filesDir := pathOf "t"
  authorLogin := pathOf "bot"
  token := []
  files := [pathOf "t/x"]
  fs := [(pathOf "t/x", .file "X"), (pathOf "./clones/r/x", .file "X")]
  prLists := fun _ => []
  badDst := []
  heads := fun _ => 0

/-- Witness for claim C1 at a concrete already-synced repository. -/
theorem skipNoChange_spec_witness :
    processRepo envC1 (pathOf "r")
      = .ok [.cloneRepo (cloneUrl envC1.authorLogin envC1.token (pathOf "r"))]
    ∧ processAll envC1 [pathOf "r"]
      = .ok [.cloneRepo (cloneUrl envC1.authorLogin envC1.token (pathOf "r"))] := by
  have h := skipNoChange_spec envC1 (pathOf "r") [] ⟨[], []⟩ (by rfl) rfl rfl
  exact ⟨h.1, h.2.2 [] (by rfl)⟩

/-! ### Claim C3: create versus update is decided by the PR lookup -/

/-- Claim C3: for a non-empty diff, the trace ends with the PR listing
followed by the commit tail, everything before the listing neither stages,
commits, pushes nor creates a PR, and the tail is chosen by the listing's
result: no match gives a non-force push followed by a PR creation, a match
gives a force push and no PR creation. -/
theorem createOrUpdate_spec (env : Env) (r : Path) (tr : List Effect) (d : FilesDiff)
    (hok : getFilesDiff env.fs (pathOf "./clones/" ++ r) env.files
      (env.filesDir ++ ['/']) = .ok d)
    (hne : ¬(d.ChangedFiles = [] ∧ d.NewFiles = []))
    (hpr : processRepo env r = .ok tr) :
    ∃ pre, (∀ e, e ∈ pre → remoteEffect e = false)
      ∧ tr = pre ++ .listPrs r ::
        (match findPrNumber (env.prLists r) env.prTitle env.authorLogin with
         | none => [.stageAll,
             .commit env.prTitle env.authorLogin (noreplyEmail env.authorLogin),
             .push branchName false, .ghCreatePr r env.prTitle branchName]
         | some _ => [.stageAll,
             .commit env.prTitle env.authorLogin (noreplyEmail env.authorLogin),
             .push branchName true]) := by
  rcases processRepo_ok_inv env r tr d hok hne hpr with ⟨newTr, chTr, hm1, hm2, htr⟩
  refine ⟨[.cloneRepo (cloneUrl env.authorLogin env.token r),
      .checkoutBranch branchName (env.heads r) true true] ++ newTr ++ chTr, ?_, ?_⟩
  · intro e he
    rcases List.mem_append.mp he with h1 | h2
    · rcases List.mem_append.mp h1 with h3 | h4
      · rcases List.mem_cons.mp h3 with rfl | h5
        · rfl
        · rcases List.mem_cons.mp h5 with rfl | h6
          · rfl
          · simp at h6
      · rcases newEffectsList_shape env.fs env.filesDir (pathOf "./clones/" ++ r)
            d.NewFiles e
            (materializeNew_ok_eq env.fs env.filesDir (pathOf "./clones/" ++ r)
              env.badDst d.NewFiles newTr hm1 ▸ h4) with ⟨q, rfl⟩ | ⟨q, c, rfl⟩
        · rfl
        · rfl
    · rcases chEffectsList_shape env.fs env.filesDir (pathOf "./clones/" ++ r)
          d.ChangedFiles e
          (materializeChanged_ok_eq env.fs env.filesDir (pathOf "./clones/" ++ r)
            env.badDst d.ChangedFiles chTr hm2 ▸ h2) with ⟨q, c, rfl⟩
      rfl
  · rw [htr]
    cases hfp : findPrNumber (env.prLists r) env.prTitle env.authorLogin with
    | none => simp [prTail, hfp, List.append_assoc]
    | some k => simp [prTail, hfp, List.append_assoc]

/-- Fixture for the C3 and C7 witnesses: one changed file, no open PRs. -/
def envC3 : Env where
  prTitle := pathOf "chore: sync with ecsact_common"
  filesDir := pathOf "t"
  authorLogin := pathOf "bot"
  token := []
  files := [pathOf "t/y"]
  fs := [(pathOf "t/y", .file "B"), (pathOf "./clones/r/y", .file "C")]
  prLists := fun _ => []
  badDst := []
  heads := fun _ => 7

/-- Witness for claim C3 at a concrete repository with one changed file and
no matching open PR. -/
theorem createOrUpdate_spec_witness :
    ∃ pre, (∀ e, e ∈ pre → remoteEffect e = false)
      ∧ [Effect.cloneRepo (cloneUrl envC3.authorLogin envC3.token (pathOf "r")),
          .checkoutBranch branchName 7 true true,
          .writeFile (pathOf "./clones/r" ++ '/' :: pathOf "y") "B",
          .listPrs (pathOf "r"), .stageAll,
          .commit envC3.prTitle envC3.authorLogin (noreplyEmail envC3.authorLogin),
          .push branchName false, .ghCreatePr (pathOf "r") envC3.prTitle branchName]
        = pre ++ .listPrs (pathOf "r") ::
          (match findPrNumber (envC3.prLists (pathOf "r")) envC3.prTitle
              envC3.authorLogin with
           | none => [.stageAll,
               .commit envC3.prTitle envC3.authorLogin (noreplyEmail envC3.authorLogin),
               .push branchName false, .ghCreatePr (pathOf "r") envC3.prTitle branchName]
           | some _ => [.stageAll,
               .commit envC3.prTitle envC3.authorLogin (noreplyEmail envC3.authorLogin),
               .push branchName true]) :=
  createOrUpdate_spec envC3 (pathOf "r") _ ⟨[], [pathOf "y"]⟩ (by rfl)
    (by simp) (by rfl)

/-! ### Claim C7: branch preparation from head with force -/

/-- Claim C7: on the non-empty-diff path the orchestrator's second effect is
the checkout of the fixed branch name at the current head with both create
and force set, and under the collaborator's checkout semantics that call
succeeds for every prior local branch state — also when a stale branch of
that name exists — leaving the branch at the current head. -/
theorem branchPrepare_spec (env : Env) (r : Path) (tr : List Effect) (d : FilesDiff)
    (hok : getFilesDiff env.fs (pathOf "./clones/" ++ r) env.files
      (env.filesDir ++ ['/']) = .ok d)
    (hne : ¬(d.ChangedFiles = [] ∧ d.NewFiles = []))
    (hpr : processRepo env r = .ok tr) :
    (∃ rest2, tr = .cloneRepo (cloneUrl env.authorLogin env.token r)
        :: .checkoutBranch branchName (env.heads r) true true :: rest2)
    ∧ ∀ bs : Branches,
        checkoutBranchSem bs branchName (env.heads r) true true
          = .ok (setBranch bs branchName (env.heads r))
        ∧ lookupBranch (setBranch bs branchName (env.heads r)) branchName
          = some (env.heads r) := by
  constructor
  · rcases processRepo_ok_inv env r tr d hok hne hpr with ⟨newTr, chTr, _, _, htr⟩
    exact ⟨newTr ++ chTr ++ [.listPrs r] ++ prTail env r,
      by rw [htr]; simp [List.append_assoc]⟩
  · intro bs
    exact ⟨checkoutBranchSem_force_create bs branchName (env.heads r),
      lookupBranch_setBranch bs branchName (env.heads r)⟩

/-- Witness for claim C7, including a prior branch state in which the fixed
branch name already exists at a stale hash. -/
theorem branchPrepare_spec_witness :
    (∃ rest2, [Effect.cloneRepo (cloneUrl envC3.authorLogin envC3.token (pathOf "r")),
        .checkoutBranch branchName 7 true true,
        .writeFile (pathOf "./clones/r" ++ '/' :: pathOf "y") "B",
        .listPrs (pathOf "r"), .stageAll,
        .commit envC3.prTitle envC3.authorLogin (noreplyEmail envC3.authorLogin),
        .push branchName false, .ghCreatePr (pathOf "r") envC3.prTitle branchName]
      = .cloneRepo (cloneUrl envC3.authorLogin envC3.token (pathOf "r"))
        :: .checkoutBranch branchName 7 true true :: rest2)
    ∧ checkoutBranchSem [(branchName, 3)] branchName 7 true true
        = .ok (setBranch [(branchName, 3)] branchName 7)
    ∧ lookupBranch (setBranch [(branchName, 3)] branchName 7) branchName = some 7 := by
  have h := branchPrepare_spec envC3 (pathOf "r") _ ⟨[], [pathOf "y"]⟩ (by rfl)
    (by simp) (by rfl)
  exact ⟨h.1, (h.2 [(branchName, 3)]).1, (h.2 [(branchName, 3)]).2⟩

/-! ### Claim C8: materialization writes byte-identical copies -/

/-- Claim C8: a successful new-file materialization produces, per file, the
creation of the missing parent directories followed by a write of the
template's bytes to the target path; a successful changed-file
materialization overwrites each target in place with the template's bytes;
an unreadable template source or an unwritable destination makes the
materializer fail with an I/O error instead of continuing. -/
theorem materialize_spec (fs : FS) (fd cd : Path) (bad ns cs : List Path) :
    (∀ tr, materializeNew fs fd cd bad ns = .ok tr →
      tr = newEffectsList fs fd cd ns
      ∧ ∀ n, n ∈ ns → ∃ c, lookupFS fs (fd ++ '/' :: n) = some (.file c)
          ∧ Effect.mkdirAll (dirOf (cd ++ '/' :: n)) ∈ tr
          ∧ Effect.writeFile (cd ++ '/' :: n) c ∈ tr)
    ∧ (∀ tr, materializeChanged fs fd cd bad cs = .ok tr →
      tr = chEffectsList fs fd cd cs
      ∧ ∀ n, n ∈ cs → ∃ c, lookupFS fs (fd ++ '/' :: n) = some (.file c)
          ∧ Effect.writeFile (cd ++ '/' :: n) c ∈ tr)
    ∧ ((∃ n, n ∈ ns ∧ ∀ c, lookupFS fs (fd ++ '/' :: n) ≠ some (.file c)) →
        materializeNew fs fd cd bad ns = .error .ioError)
    ∧ ((∃ n, n ∈ ns ∧ (cd ++ '/' :: n) ∈ bad) →
        materializeNew fs fd cd bad ns = .error .ioError)
    ∧ ((∃ n, n ∈ cs ∧ ∀ c, lookupFS fs (fd ++ '/' :: n) ≠ some (.file c)) →
        materializeChanged fs fd cd bad cs = .error .ioError)
    ∧ ((∃ n, n ∈ cs ∧ (cd ++ '/' :: n) ∈ bad) →
        materializeChanged fs fd cd bad cs = .error .ioError) := by
  refine ⟨?_, ?_, materializeNew_err_src fs fd cd bad ns,
    materializeNew_err_dst fs fd cd bad ns,
    materializeChanged_err_src fs fd cd bad cs,
    materializeChanged_err_dst fs fd cd bad cs⟩
  · intro tr h
    have heq := materializeNew_ok_eq fs fd cd bad ns tr h
    refine ⟨heq, ?_⟩
    intro n hn
    rcases materializeNew_ok_src fs fd cd bad ns tr h n hn with ⟨c, hl⟩
    rcases mem_newEffectsList fs fd cd ns n c hn hl with ⟨h1, h2⟩
    exact ⟨c, hl, heq ▸ h1, heq ▸ h2⟩
  · intro tr h
    have heq := materializeChanged_ok_eq fs fd cd bad cs tr h
    refine ⟨heq, ?_⟩
    intro n hn
    rcases materializeChanged_ok_src fs fd cd bad cs tr h n hn with ⟨c, hl⟩
    exact ⟨c, hl, heq ▸ mem_chEffectsList fs fd cd cs n c hn hl⟩

/-- Fixture for the C8 witness: a template with one nested new file. -/
def fsC8 : FS := [(pathOf "t/newdir/sub/file.txt", .file "N")]

/-- Witness for claim C8: materializing newdir/sub/file.txt into an empty
checkout creates the intermediate directories and writes the template's
bytes; materializing a missing template source fails with an I/O error. -/
theorem materialize_spec_witness :
    ([Effect.mkdirAll (dirOf (pathOf "r" ++ '/' :: pathOf "newdir/sub/file.txt")),
      Effect.writeFile (pathOf "r" ++ '/' :: pathOf "newdir/sub/file.txt") "N"]
        = newEffectsList fsC8 (pathOf "t") (pathOf "r") [pathOf "newdir/sub/file.txt"]
      ∧ ∀ n, n ∈ [pathOf "newdir/sub/file.txt"] →
          ∃ c, lookupFS fsC8 (pathOf "t" ++ '/' :: n) = some (.file c)
            ∧ Effect.mkdirAll (dirOf (pathOf "r" ++ '/' :: n))
                ∈ [Effect.mkdirAll (dirOf (pathOf "r" ++ '/' :: pathOf "newdir/sub/file.txt")),
                   Effect.writeFile (pathOf "r" ++ '/' :: pathOf "newdir/sub/file.txt") "N"]
            ∧ Effect.writeFile (pathOf "r" ++ '/' :: n) c
                ∈ [Effect.mkdirAll (dirOf (pathOf "r" ++ '/' :: pathOf "newdir/sub/file.txt")),
                   Effect.writeFile (pathOf "r" ++ '/' :: pathOf "newdir/sub/file.txt") "N"])
    ∧ materializeNew fsC8 (pathOf "t") (pathOf "r") [] [pathOf "miss"]
        = .error .ioError :=
  ⟨(materialize_spec fsC8 (pathOf "t") (pathOf "r") [] [pathOf "newdir/sub/file.txt"] []).1
      _ (by rfl),
   (materialize_spec fsC8 (pathOf "t") (pathOf "r") [] [pathOf "miss"] []).2.2.1
      ⟨pathOf "miss", List.mem_cons_self _ _, by
        intro c h
        rw [show lookupFS fsC8 (pathOf "t" ++ '/' :: pathOf "miss") = none from rfl] at h
        exact Option.noConfusion h⟩⟩

/-! ### Claim C9: the clone URL embeds the token exactly when present -/

/-- Claim C9: a successful per-repository run clones from the URL computed by
cloneUrl; an empty token gives the plain public HTTPS URL of the repository,
and a non-empty token gives a URL that embeds the token and the author
login. -/
theorem cloneUrl_spec (env : Env) (r : Path) :
    (∀ tr, processRepo env r = .ok tr →
      ∃ rest2, tr = .cloneRepo (cloneUrl env.authorLogin env.token r) :: rest2)
    ∧ (env.token = [] →
        cloneUrl env.authorLogin env.token r
          = pathOf "https://github.com/ecsact-dev/" ++ r ++ pathOf ".git")
    ∧ (env.token ≠ [] →
        env.token <:+: cloneUrl env.authorLogin env.token r
        ∧ env.authorLogin <:+: cloneUrl env.authorLogin env.token r) := by
  refine ⟨?_, ?_, ?_⟩
  · intro tr h
    unfold processRepo at h
    cases hd : getFilesDiff env.fs (pathOf "./clones/" ++ r) env.files
        (env.filesDir ++ ['/']) with
    | error e => simp [hd] at h
    | ok d =>
      simp only [hd] at h
      by_cases hskip : d.ChangedFiles = [] ∧ d.NewFiles = []
      · rw [if_pos hskip] at h
        simp only [Except.ok.injEq] at h
        exact ⟨[], h.symm⟩
      · rw [if_neg hskip] at h
        cases hm1 : materializeNew env.fs env.filesDir (pathOf "./clones/" ++ r)
            env.badDst d.NewFiles with
        | error e => simp [hm1] at h
        | ok newTr =>
          simp only [hm1] at h
          cases hm2 : materializeChanged env.fs env.filesDir (pathOf "./clones/" ++ r)
              env.badDst d.ChangedFiles with
          | error e => simp [hm2] at h
          | ok chTr =>
            simp only [hm2, Except.ok.injEq] at h
            exact ⟨_, h.symm⟩
  · intro h0
    unfold cloneUrl
    rw [if_pos h0]
  · intro hne
    unfold cloneUrl
    rw [if_neg hne]
    constructor
    · exact ⟨pathOf "https://" ++ env.authorLogin ++ [':'],
        pathOf "@github.com/ecsact-dev/" ++ r ++ pathOf ".git", by simp⟩
    · exact ⟨pathOf "https://",
        ':' :: env.token ++ pathOf "@github.com/ecsact-dev/" ++ r ++ pathOf ".git",
        by simp⟩

/-- Fixture for the C9 witness: as envC3 but with a token present. -/
def envC9 : Env where
  prTitle := pathOf "chore: sync with ecsact_common"
  filesDir := pathOf "t"
  authorLogin := pathOf "bot"
  token := pathOf "tok"
  files := [pathOf "t/y"]
  fs := [(pathOf "t/y", .file "B"), (pathOf "./clones/r/y", .file "C")]
  prLists := fun _ => []
  badDst := []
  heads := fun _ => 7

/-- Witness for claim C9: with a token the clone URL embeds token and login;
a concrete run starts with the clone of that URL; without a token the URL is
the plain public one. -/
theorem cloneUrl_spec_witness :
    (∃ rest2, [Effect.cloneRepo (cloneUrl envC9.authorLogin envC9.token (pathOf "r")),
        .checkoutBranch branchName 7 true true,
        .writeFile (pathOf "./clones/r" ++ '/' :: pathOf "y") "B",
        .listPrs (pathOf "r"), .stageAll,
        .commit envC9.prTitle envC9.authorLogin (noreplyEmail envC9.authorLogin),
        .push branchName false, .ghCreatePr (pathOf "r") envC9.prTitle branchName]
      = .cloneRepo (cloneUrl envC9.authorLogin envC9.token (pathOf "r")) :: rest2)
    ∧ envC9.token <:+: cloneUrl envC9.authorLogin envC9.token (pathOf "r")
    ∧ envC9.authorLogin <:+: cloneUrl envC9.authorLogin envC9.token (pathOf "r")
    ∧ cloneUrl envC1.authorLogin envC1.token (pathOf "r")
        = pathOf "https://github.com/ecsact-dev/" ++ pathOf "r" ++ pathOf ".git" := by
  have h9 := cloneUrl_spec envC9 (pathOf "r")
  have h1 := cloneUrl_spec envC1 (pathOf "r")
  have hinf := h9.2.2 (by decide)
  exact ⟨h9.1 _ (by rfl), hinf.1, hinf.2, h1.2.1 rfl⟩

/-! ### Claim C6: the file enumerator (getAllFiles / filepath.Walk) -/

mutual
/-- A filesystem subtree as filepath.Walk observes it: a regular file, a
node on which stat or readdir fails (permission problems, dangling
symbolic links), or a directory with named entries in the order readDirNames
presents them.  readDirNames sorts the names it returns, so the tree of a
real directory has sorted entry lists; WF below states that representation
invariant. -/
inductive FileTree where
  | file (content : String)
  | unreadable
  | dir (entries : EntryList)

/-- The named entries of a directory. -/
inductive EntryList where
  | nil
  | cons (name : Path) (tree : FileTree) (rest : EntryList)
end

mutual
/-- filepath.Walk as called by getAllFiles (main.go lines 92-111): visit the
node, appending its path exactly when it is not a directory; abort with the
error of any failing stat or readdir; recurse into directory entries in
their listed order. -/
def walkTree (p : Path) (t : FileTree) : Except Err (List Path) :=
  match t with
  | .file _ => .ok [p]
  | .unreadable => .error .ioError
  | .dir es => walkEntries p es

/-- The directory part of the walk: concatenate the subtree walks in entry
order, aborting on the first error. -/
def walkEntries (p : Path) (es : EntryList) : Except Err (List Path) :=
  match es with
  | .nil => .ok []
  | .cons n t rest =>
    match walkTree (p ++ '/' :: n) t with
    | .error e => .error e
    | .ok l =>
      match walkEntries p rest with
      | .error e => .error e
      | .ok l2 => .ok (l ++ l2)
end

/-- getAllFiles of main.go lines 92-111: walk the whole subtree from the
root; any error makes the function return the error and no file list. -/
def getAllFiles (dir : Path) (t : FileTree) : Except Err (List Path) :=
  walkTree dir t

mutual
/-- Modelled from the spec: the enumerator contract of section 4.1 — the
flat list of every regular file under the root, in the per-directory lexical
order of the walk. -/
def treeFiles (p : Path) (t : FileTree) : List Path :=
  match t with
  | .file _ => [p]
  | .unreadable => []
  | .dir es => treeFilesL p es

/-- The file listing of a directory's entries. -/
def treeFilesL (p : Path) (es : EntryList) : List Path :=
  match es with
  | .nil => []
  | .cons n t rest => treeFiles (p ++ '/' :: n) t ++ treeFilesL p rest
end

mutual
/-- Whether some node of the subtree is unreadable. -/
def hasUnreadable : FileTree → Bool
  | .file _ => false
  | .unreadable => true
  | .dir es => hasUnreadableL es

/-- Whether some node under one of the entries is unreadable. -/
def hasUnreadableL : EntryList → Bool
  | .nil => false
  | .cons _ t rest => hasUnreadable t || hasUnreadableL rest
end

/-- Order key that places the path separator below every other character:
with it, lexicographic comparison of full slash-separated paths coincides
with the componentwise lexical order in which the walk visits files. -/
def ordKey (c : Char) : Nat := if c = '/' then 0 else c.toNat + 1

/-- Lexicographic comparison of paths through ordKey. -/
def pathLtB : Path → Path → Bool
  | [], [] => false
  | [], _ :: _ => true
  | _ :: _, [] => false
  | a :: as, b :: bs => if a = b then pathLtB as bs else decide (ordKey a < ordKey b)

/-- The names of a directory's entries, in listed order. -/
def EntryList.names : EntryList → List Path
  | .nil => []
  | .cons n _ rest => n :: rest.names

/-- All of ms are strictly above n. -/
def ltAll (n : Path) (ms : List Path) : Bool := ms.all (fun m => pathLtB n m)

/-- Strictly sorted name list. -/
def namesSorted : List Path → Bool
  | [] => true
  | n :: rest => ltAll n rest && namesSorted rest

/-- A legal directory-entry name: nonempty and slash-free, as readdir
yields. -/
def legalName (n : Path) : Bool := !n.isEmpty && n.all (fun c => c != '/')

mutual
/-- Well-formedness of a tree as the image of a real directory walk: entry
names strictly sorted (readDirNames sorts them) and legal, recursively. -/
def WF : FileTree → Bool
  | .file _ => true
  | .unreadable => true
  | .dir es => namesSorted es.names && es.names.all legalName && WFL es

/-- Well-formedness of every entry's subtree. -/
def WFL : EntryList → Bool
  | .nil => true
  | .cons _ t rest => WF t && WFL rest
end

mutual
theorem walkTree_ok : ∀ (p : Path) (t : FileTree), hasUnreadable t = false →
    walkTree p t = .ok (treeFiles p t)
  | _, .file _, _ => rfl
  | p, .unreadable, h => by simp [hasUnreadable] at h
  | p, .dir es, h => walkEntries_ok p es h

theorem walkEntries_ok : ∀ (p : Path) (es : EntryList), hasUnreadableL es = false →
    walkEntries p es = .ok (treeFilesL p es)
  | _, .nil, _ => rfl
  | p, .cons n t rest, h => by
    have hsplit : hasUnreadable t = false ∧ hasUnreadableL rest = false := by
      have h2 : (hasUnreadable t || hasUnreadableL rest) = false := h
      simpa using h2
    simp only [walkEntries, treeFilesL]
    rw [walkTree_ok (p ++ '/' :: n) t hsplit.1, walkEntries_ok p rest hsplit.2]
end

mutual
theorem walkTree_err : ∀ (p : Path) (t : FileTree), hasUnreadable t = true →
    walkTree p t = .error .ioError
  | _, .file _, h => by simp [hasUnreadable] at h
  | _, .unreadable, _ => rfl
  | p, .dir es, h => walkEntries_err p es h

theorem walkEntries_err : ∀ (p : Path) (es : EntryList), hasUnreadableL es = true →
    walkEntries p es = .error .ioError
  | _, .nil, h => by simp [hasUnreadableL] at h
  | p, .cons n t rest, h => by
    simp only [walkEntries]
    cases hu : hasUnreadable t with
    | true => rw [walkTree_err (p ++ '/' :: n) t hu]
    | false =>
      have h2 : hasUnreadableL rest = true := by
        have h3 : (hasUnreadable t || hasUnreadableL rest) = true := h
        simpa [hu] using h3
      rw [walkTree_ok (p ++ '/' :: n) t hu, walkEntries_err p rest h2]
end

mutual
theorem treeFiles_shape : ∀ (p : Path) (t : FileTree) (q : Path),
    q ∈ treeFiles p t → q = p ∨ ∃ r, q = p ++ '/' :: r
  | p, .file c, q, h => by
    simp only [treeFiles, List.mem_singleton] at h
    exact Or.inl h
  | p, .unreadable, q, h => by simp [treeFiles] at h
  | p, .dir es, q, h => treeFilesL_shape p es q h

theorem treeFilesL_shape : ∀ (p : Path) (es : EntryList) (q : Path),
    q ∈ treeFilesL p es → q = p ∨ ∃ r, q = p ++ '/' :: r
  | p, .nil, q, h => by simp [treeFilesL] at h
  | p, .cons n t rest, q, h => by
    rcases List.mem_append.mp h with h1 | h2
    · rcases treeFiles_shape (p ++ '/' :: n) t q h1 with rfl | ⟨r, rfl⟩
      · exact Or.inr ⟨n, rfl⟩
      · exact Or.inr ⟨n ++ '/' :: r, by simp⟩
    · exact treeFilesL_shape p rest q h2
end

/-- The shape of a path produced under one directory entry: the parent path,
a slash, the entry name, then either nothing or a slash-started rest. -/
theorem treeFiles_entry_shape (p n : Path) (t : FileTree) (q : Path)
    (h : q ∈ treeFiles (p ++ '/' :: n) t) :
    ∃ s, q = p ++ '/' :: (n ++ s) ∧ (s = [] ∨ ∃ r, s = '/' :: r) := by
  rcases treeFiles_shape (p ++ '/' :: n) t q h with rfl | ⟨r, rfl⟩
  · exact ⟨[], by simp, Or.inl rfl⟩
  · exact ⟨'/' :: r, by simp, Or.inr ⟨r, rfl⟩⟩

/-- Every path listed under a directory's entries comes from some entry,
with the corresponding shape. -/
theorem treeFilesL_mem_shape : ∀ (p : Path) (es : EntryList) (q : Path),
    q ∈ treeFilesL p es →
    ∃ n, n ∈ es.names ∧ ∃ s, q = p ++ '/' :: (n ++ s) ∧ (s = [] ∨ ∃ r, s = '/' :: r)
  | p, .nil, q, h => by simp [treeFilesL] at h
  | p, .cons n t rest, q, h => by
    rcases List.mem_append.mp h with h1 | h2
    · rcases treeFiles_entry_shape p n t q h1 with ⟨s, hq, hs⟩
      exact ⟨n, List.mem_cons_self n rest.names, s, hq, hs⟩
    · rcases treeFilesL_mem_shape p rest q h2 with ⟨m, hm, s, hq, hs⟩
      exact ⟨m, List.mem_cons_of_mem n hm, s, hq, hs⟩

theorem pathLtB_append_common : ∀ (c x y : Path), pathLtB (c ++ x) (c ++ y) = pathLtB x y := by
  intro c
  induction c with
  | nil => intro x y; rfl
  | cons a cs ih => intro x y; simp [pathLtB, ih]

theorem pathLtB_key : ∀ (n1 n2 s1 s2 : Path),
    pathLtB n1 n2 = true → '/' ∉ n1 → '/' ∉ n2 →
    (s1 = [] ∨ ∃ r, s1 = '/' :: r) → (s2 = [] ∨ ∃ r, s2 = '/' :: r) →
    pathLtB (n1 ++ s1) (n2 ++ s2) = true := by
  intro n1
  induction n1 with
  | nil =>
    intro n2 s1 s2 hlt _ hn2 hs1 _
    cases n2 with
    | nil => simp [pathLtB] at hlt
    | cons d n2t =>
      have hd : d ≠ '/' := fun hh => hn2 (hh ▸ List.mem_cons_self d n2t)
      rcases hs1 with rfl | ⟨r, rfl⟩
      · simp [pathLtB]
      · show pathLtB ('/' :: r) (d :: (n2t ++ s2)) = true
        have hne : ¬('/' = d) := fun hh => hd hh.symm
        simp only [pathLtB, if_neg hne, decide_eq_true_eq]
        simp [ordKey, hd]
  | cons a n1t ih =>
    intro n2 s1 s2 hlt hn1 hn2 hs1 hs2
    cases n2 with
    | nil => simp [pathLtB] at hlt
    | cons b n2t =>
      by_cases hab : a = b
      · subst hab
        have hlt2 : pathLtB n1t n2t = true := by simpa [pathLtB] using hlt
        have hn1t : '/' ∉ n1t := fun hh => hn1 (List.mem_cons_of_mem a hh)
        have hn2t : '/' ∉ n2t := fun hh => hn2 (List.mem_cons_of_mem a hh)
        show pathLtB (a :: (n1t ++ s1)) (a :: (n2t ++ s2)) = true
        simpa [pathLtB] using ih n2t s1 s2 hlt2 hn1t hn2t hs1 hs2
      · have hlt2 : decide (ordKey a < ordKey b) = true := by
          simpa [pathLtB, hab] using hlt
        show pathLtB (a :: (n1t ++ s1)) (b :: (n2t ++ s2)) = true
        simp [pathLtB, hab, hlt2]

theorem slashFree_of_legal {n : Path} (h : legalName n = true) : '/' ∉ n := by
  intro hin
  unfold legalName at h
  simp only [Bool.and_eq_true, List.all_eq_true] at h
  have h2 := h.2 '/' hin
  simp at h2

mutual
theorem treeFiles_sorted : ∀ (p : Path) (t : FileTree), WF t = true →
    (treeFiles p t).Pairwise (fun a b => pathLtB a b = true)
  | p, .file c, _ => by simp [treeFiles]
  | p, .unreadable, _ => by simp [treeFiles]
  | p, .dir es, h => by
    have h3 : namesSorted es.names = true ∧ es.names.all legalName = true
        ∧ WFL es = true := by
      simpa [WF, Bool.and_eq_true, and_assoc] using h
    exact treeFilesL_sorted p es h3.1 h3.2.1 h3.2.2

theorem treeFilesL_sorted : ∀ (p : Path) (es : EntryList),
    namesSorted es.names = true → es.names.all legalName = true → WFL es = true →
    (treeFilesL p es).Pairwise (fun a b => pathLtB a b = true)
  | p, .nil, _, _, _ => by simp [treeFilesL]
  | p, .cons n t rest, hs, hl, hw => by
    have h1 : ltAll n rest.names = true ∧ namesSorted rest.names = true := by
      simpa [EntryList.names, namesSorted, Bool.and_eq_true] using hs
    have h2 : legalName n = true ∧ rest.names.all legalName = true := by
      simpa [EntryList.names, Bool.and_eq_true] using hl
    have h3 : WF t = true ∧ WFL rest = true := by
      simpa [WFL, Bool.and_eq_true] using hw
    show (treeFiles (p ++ '/' :: n) t ++ treeFilesL p rest).Pairwise _
    rw [List.pairwise_append]
    refine ⟨treeFiles_sorted (p ++ '/' :: n) t h3.1,
      treeFilesL_sorted p rest h1.2 h2.2 h3.2, ?_⟩
    intro q1 hq1 q2 hq2
    rcases treeFiles_entry_shape p n t q1 hq1 with ⟨s1, rfl, hs1⟩
    rcases treeFilesL_mem_shape p rest q2 hq2 with ⟨m, hm, s2, rfl, hs2⟩
    have hall : rest.names.all (fun m2 => pathLtB n m2) = true := h1.1
    have hnm : pathLtB n m = true := by
      simpa using List.all_eq_true.mp hall m hm
    have hsf1 : '/' ∉ n := slashFree_of_legal h2.1
    have hsf2 : '/' ∉ m := slashFree_of_legal (List.all_eq_true.mp h2.2 m hm)
    have key := pathLtB_key n m s1 s2 hnm hsf1 hsf2 hs1 hs2
    have hre : ∀ X : Path, p ++ '/' :: X = (p ++ ['/']) ++ X := by
      intro X; simp
    show pathLtB (p ++ '/' :: (n ++ s1)) (p ++ '/' :: (m ++ s2)) = true
    rw [hre (n ++ s1), hre (m ++ s2), pathLtB_append_common]
    exact key
end

/-- Claim C6: the enumerator returns exactly the regular files of the
subtree — the spec-side lexical listing treeFiles — when no node is
unreadable; it fails with an I/O error, producing no partial list, exactly
when some node encountered in the walk is unreadable; and on a well-formed
tree (sorted legal entry names at every directory) the listing is strictly
sorted in the path order that matches per-directory lexical visiting. -/
theorem getAllFiles_spec (p : Path) (t : FileTree) :
    (hasUnreadable t = false → getAllFiles p t = .ok (treeFiles p t))
    ∧ (getAllFiles p t = .error .ioError ↔ hasUnreadable t = true)
    ∧ (WF t = true → (treeFiles p t).Pairwise (fun a b => pathLtB a b = true)) := by
  refine ⟨walkTree_ok p t, ⟨?_, walkTree_err p t⟩, treeFiles_sorted p t⟩
  intro h
  cases hu : hasUnreadable t with
  | true => rfl
  | false =>
    unfold getAllFiles at h
    rw [walkTree_ok p t hu] at h
    exact Except.noConfusion h

/-- Fixture for the C6 witness: root containing file b and directory c with
file a inside. -/
def treeC6 : FileTree :=
  .dir (.cons (pathOf "b") (.file "1")
    (.cons (pathOf "c") (.dir (.cons (pathOf "a") (.file "2") .nil)) .nil))

/-- Witness for claim C6: the concrete tree walks to its two files in order,
the listing is sorted, and a tree with an unreadable node fails. -/
theorem getAllFiles_spec_witness :
    getAllFiles (pathOf "root") treeC6 = .ok (treeFiles (pathOf "root") treeC6)
    ∧ (treeFiles (pathOf "root") treeC6).Pairwise (fun a b => pathLtB a b = true)
    ∧ getAllFiles (pathOf "root")
        (.dir (.cons (pathOf "x") .unreadable .nil)) = .error .ioError :=
  ⟨(getAllFiles_spec (pathOf "root") treeC6).1 (by rfl),
   (getAllFiles_spec (pathOf "root") treeC6).2.2 (by rfl),
   (getAllFiles_spec (pathOf "root")
     (.dir (.cons (pathOf "x") .unreadable .nil))).2.1.mpr (by rfl)⟩

end EcsactCommon
